import Mathlib

/-!
Verification of the instarec frame-extraction pipeline.

Shallow embedding of:
 - `dedupe_frames` (scripts/extract_frames.py): perceptual-hash greedy
   deduplication of an ordered frame sequence;
 - `extract_card` (scripts/extract_card.py): MSER-region union-box card
   detection with area / aspect-ratio filtering;
 - `extract_unique_frames` (instarec/frames.py) and the relevant part of
   `_run_pipeline` (main.py): the pipeline coordination.

Frames carry an identifier (the file name index) and a perceptual
fingerprint — the bit vector produced by `imagehash.phash`; the distance
`h - prev` computed by imagehash is the Hamming distance of the two bit
vectors (`abs` in the source is a no-op on that non-negative count).
-/

namespace Instarec

/-- A perceptual fingerprint: the bit vector of `imagehash.phash`. -/
abbrev Fp := List Bool

/-- Hamming distance of two bit vectors (imagehash `h1 - h2`:
`count_nonzero(h1.hash != h2.hash)`; phash vectors share one length). -/
def hamming : Fp → Fp → Nat
  | [], _ => 0
  | _ :: _, [] => 0
  | a :: as, b :: bs => (if a = b then 0 else 1) + hamming as bs

/-- A scene frame: its file index and its perceptual fingerprint. -/
structure Frame where
  idx : Nat
  fp : Fp
deriving DecidableEq, Repr

/-- Loop of `dedupe_frames`: walk the sorted frame list, keeping the list
`hashes` of fingerprints of the frames accepted so far; a frame is copied
to the output and its hash recorded iff
`all(abs(h - prev) > hash_threshold for prev in hashes)`. -/
def dedupeAux (t : Nat) : List Frame → List Fp → List Frame
  | [], _ => []
  | f :: rest, hashes =>
    if ∀ prev ∈ hashes, t < hamming f.fp prev then
      f :: dedupeAux t rest (hashes ++ [f.fp])
    else
      dedupeAux t rest hashes

/-- Embeds `dedupe_frames` (scripts/extract_frames.py:28-44): the ordered list of
frames kept by the deduplication pass, starting from an empty hash list. -/
def dedupe_frames (frames : List Frame) (t : Nat) : List Frame :=
  dedupeAux t frames []

/-- One step of the spec-level description of the deduplication loop:
append the frame to the accepted sequence iff its fingerprint distance to
every previously accepted frame is strictly greater than the threshold. -/
def dedupeStep (t : Nat) (acc : List Frame) (f : Frame) : List Frame :=
  if ∀ prev ∈ acc, t < hamming f.fp prev.fp then acc ++ [f] else acc

theorem hamming_comm (a b : Fp) : hamming a b = hamming b a := by
  induction a generalizing b with
  | nil => cases b <;> simp [hamming]
  | cons x xs ih =>
    cases b with
    | nil => simp [hamming]
    | cons y ys =>
      simp only [hamming, ih ys]
      congr 1
      by_cases h : x = y
      · simp [h]
      · simp [h, Ne.symm h]

theorem hamming_self (a : Fp) : hamming a a = 0 := by
  induction a with
  | nil => rfl
  | cons x xs ih => simp [hamming, ih]

theorem dedupeAux_nil (t : Nat) (H : List Fp) : dedupeAux t [] H = [] := rfl

theorem dedupeAux_cons (t : Nat) (f : Frame) (rest : List Frame) (H : List Fp) :
    dedupeAux t (f :: rest) H =
      if ∀ prev ∈ H, t < hamming f.fp prev then
        f :: dedupeAux t rest (H ++ [f.fp])
      else
        dedupeAux t rest H := rfl

theorem dedupeAux_sublist (t : Nat) :
    ∀ (rest : List Frame) (H : List Fp), (dedupeAux t rest H).Sublist rest := by
  intro rest
  induction rest with
  | nil => intro H; simp [dedupeAux_nil]
  | cons f rest ih =>
    intro H
    by_cases h : ∀ prev ∈ H, t < hamming f.fp prev
    · rw [dedupeAux_cons, if_pos h]
      exact (ih (H ++ [f.fp])).cons₂ f
    · rw [dedupeAux_cons, if_neg h]
      exact (ih H).cons f

theorem dedupeAux_eq_foldl (t : Nat) :
    ∀ (rest K : List Frame),
      K ++ dedupeAux t rest (K.map Frame.fp) = rest.foldl (dedupeStep t) K := by
  intro rest
  induction rest with
  | nil => intro K; simp [dedupeAux]
  | cons f rest ih =>
    intro K
    by_cases h : ∀ prev ∈ K, t < hamming f.fp prev.fp
    · have h' : ∀ prev ∈ K.map Frame.fp, t < hamming f.fp prev := by
        intro p hp
        rcases List.mem_map.mp hp with ⟨q, hq, rfl⟩
        exact h q hq
      have hstep : dedupeStep t K f = K ++ [f] := if_pos h
      calc K ++ dedupeAux t (f :: rest) (K.map Frame.fp)
          = K ++ (f :: dedupeAux t rest (K.map Frame.fp ++ [f.fp])) := by
            rw [dedupeAux_cons, if_pos h']
        _ = (K ++ [f]) ++ dedupeAux t rest ((K ++ [f]).map Frame.fp) := by
            simp
        _ = rest.foldl (dedupeStep t) (K ++ [f]) := ih (K ++ [f])
        _ = (f :: rest).foldl (dedupeStep t) K := by
            simp [List.foldl_cons, hstep]
    · have h' : ¬ ∀ prev ∈ K.map Frame.fp, t < hamming f.fp prev := by
        intro hc
        exact h fun q hq => hc q.fp (List.mem_map_of_mem Frame.fp hq)
      have hstep : dedupeStep t K f = K := if_neg h
      calc K ++ dedupeAux t (f :: rest) (K.map Frame.fp)
          = K ++ dedupeAux t rest (K.map Frame.fp) := by
            rw [dedupeAux_cons, if_neg h']
        _ = rest.foldl (dedupeStep t) K := ih K
        _ = (f :: rest).foldl (dedupeStep t) K := by simp [List.foldl_cons, hstep]

/-- Sample frames realising the spec scenario: fingerprints at Hamming
distance 5. -/
def scA : Frame := ⟨1, List.replicate 5 true⟩

/-- Second scenario frame, all five bits flipped relative to `scA`. -/
def scB : Frame := ⟨2, List.replicate 5 false⟩

/-- C1: the Deduplicator accepts a frame iff its fingerprint distance to
every previously accepted fingerprint is strictly greater than the
threshold (the fold characterisation), the output is an order-preserving
subsequence of the input of length at most the input length, the first
frame of a non-empty input is always kept, and for two frames at
fingerprint distance 5 the second is discarded at threshold 10 and kept at
threshold 3. -/
theorem dedupe_frames_characterization (frames : List Frame) (t : Nat)
    (a b : Frame) (hab : hamming a.fp b.fp = 5) :
    dedupe_frames frames t = frames.foldl (dedupeStep t) [] ∧
    (dedupe_frames frames t).Sublist frames ∧
    (dedupe_frames frames t).length ≤ frames.length ∧
    (∀ f fs, (dedupe_frames (f :: fs) t).head? = some f) ∧
    dedupe_frames [a, b] 10 = [a] ∧
    dedupe_frames [a, b] 3 = [a, b] := by
  have hba : hamming b.fp a.fp = 5 := by rw [hamming_comm]; exact hab
  refine ⟨?_, ?_, ?_, ?_, ?_, ?_⟩
  · simpa using dedupeAux_eq_foldl t frames []
  · exact dedupeAux_sublist t frames []
  · exact (dedupeAux_sublist t frames []).length_le
  · intro f fs
    simp [dedupe_frames, dedupeAux_cons]
  · simp [dedupe_frames, dedupeAux_cons, dedupeAux_nil, hba]
  · simp [dedupe_frames, dedupeAux_cons, dedupeAux_nil, hba]

/-- Witness for C1 at the concrete scenario frames `scA`, `scB`. -/
theorem dedupe_frames_characterization_witness :
    hamming scA.fp scB.fp = 5 ∧
    dedupe_frames [scA, scB] 10 = [scA] ∧ dedupe_frames [scA, scB] 3 = [scA, scB] :=
  ⟨by decide,
   (dedupe_frames_characterization [scA, scB] 10 scA scB (by decide)).2.2.2.2.1,
   (dedupe_frames_characterization [scA, scB] 3 scA scB (by decide)).2.2.2.2.2⟩

theorem dedupeAux_pairwise (t : Nat) :
    ∀ (rest K : List Frame),
      List.Pairwise (fun a b => t < hamming b.fp a.fp) K →
      List.Pairwise (fun a b => t < hamming b.fp a.fp)
        (K ++ dedupeAux t rest (K.map Frame.fp)) := by
  intro rest
  induction rest with
  | nil => intro K hK; simpa [dedupeAux_nil] using hK
  | cons f rest ih =>
    intro K hK
    by_cases h : ∀ prev ∈ K.map Frame.fp, t < hamming f.fp prev
    · rw [dedupeAux_cons, if_pos h]
      have hKf : List.Pairwise (fun a b => t < hamming b.fp a.fp) (K ++ [f]) := by
        rw [List.pairwise_append]
        refine ⟨hK, List.pairwise_singleton _ _, ?_⟩
        intro a ha b hb
        rw [List.mem_singleton] at hb
        subst hb
        exact h a.fp (List.mem_map_of_mem Frame.fp ha)
      have := ih (K ++ [f]) hKf
      simpa using this
    · rw [dedupeAux_cons, if_neg h]
      exact ih K hK

theorem dedupe_frames_pairwise (frames : List Frame) (t : Nat) :
    List.Pairwise (fun a b => t < hamming b.fp a.fp) (dedupe_frames frames t) := by
  simpa [dedupe_frames] using dedupeAux_pairwise t frames [] List.Pairwise.nil

theorem dedupeAux_append (t : Nat) :
    ∀ (p q : List Frame) (H : List Fp),
      dedupeAux t (p ++ q) H =
        dedupeAux t p H ++ dedupeAux t q (H ++ (dedupeAux t p H).map Frame.fp) := by
  intro p
  induction p with
  | nil => intro q H; simp [dedupeAux_nil]
  | cons f p ih =>
    intro q H
    by_cases h : ∀ prev ∈ H, t < hamming f.fp prev
    · rw [List.cons_append, dedupeAux_cons, if_pos h, dedupeAux_cons, if_pos h,
        ih q (H ++ [f.fp])]
      simp
    · rw [List.cons_append, dedupeAux_cons, if_neg h, dedupeAux_cons, if_neg h,
        ih q H]

/-- C5: the Kept-Frame Set invariant. For every prefix `p` of the input —
i.e. at every intermediate step of the pass — the frames kept so far are
pairwise strictly more than `hash_threshold` apart (equivalently, no two
kept frames are within distance ≤ threshold), the pass continues from
exactly that intermediate state, and the finalized output satisfies the
same invariant. -/
theorem dedupe_frames_invariant (frames p : List Frame) (t : Nat)
    (hp : p <+: frames) :
    List.Pairwise
      (fun a b => t < hamming a.fp b.fp ∧ t < hamming b.fp a.fp)
      (dedupe_frames p t) ∧
    (∀ q, frames = p ++ q →
      dedupe_frames frames t =
        dedupe_frames p t ++
          dedupeAux t q ((dedupe_frames p t).map Frame.fp)) ∧
    List.Pairwise
      (fun a b => ¬ hamming a.fp b.fp ≤ t)
      (dedupe_frames frames t) := by
  refine ⟨?_, ?_, ?_⟩
  · refine (dedupe_frames_pairwise p t).imp ?_
    intro a b hba
    refine ⟨?_, hba⟩
    rw [hamming_comm]
    exact hba
  · intro q hq
    subst hq
    simpa [dedupe_frames] using dedupeAux_append t p q []
  · refine (dedupe_frames_pairwise frames t).imp ?_
    intro a b hba
    rw [hamming_comm]
    omega

/-- Witness for C5 at a concrete input with `[scA, scB]` as a prefix. -/
theorem dedupe_frames_invariant_witness :
    [scA] <+: [scA, scB] ∧
    List.Pairwise
      (fun a b => ¬ hamming a.fp b.fp ≤ 3)
      (dedupe_frames [scA, scB] 3) :=
  ⟨⟨[scB], rfl⟩,
   (dedupe_frames_invariant [scA, scB] [scA] 3 ⟨[scB], rfl⟩).2.2⟩

theorem dedupeAux_of_pairwise (t : Nat) :
    ∀ (l K : List Frame),
      List.Pairwise (fun a b => t < hamming b.fp a.fp) (K ++ l) →
      dedupeAux t l (K.map Frame.fp) = l := by
  intro l
  induction l with
  | nil => intro K _; exact dedupeAux_nil t _
  | cons f l ih =>
    intro K hK
    have h : ∀ prev ∈ K.map Frame.fp, t < hamming f.fp prev := by
      intro prev hprev
      rcases List.mem_map.mp hprev with ⟨q, hq, rfl⟩
      have := (List.pairwise_append.mp hK).2.2 q hq f (List.mem_cons_self f l)
      exact this
    rw [dedupeAux_cons, if_pos h]
    have hK' : List.Pairwise (fun a b => t < hamming b.fp a.fp) ((K ++ [f]) ++ l) := by
      simpa using hK
    have := ih (K ++ [f]) hK'
    simp only [List.map_append, List.map_cons, List.map_nil] at this
    rw [this]

/-- C4: the Deduplicator is idempotent — re-running it on its own output
with the same threshold keeps every frame of that output (the second pass
discards nothing). -/
theorem dedupe_frames_idempotent (frames : List Frame) (t : Nat) :
    dedupe_frames (dedupe_frames frames t) t = dedupe_frames frames t := by
  have h := dedupe_frames_pairwise frames t
  have := dedupeAux_of_pairwise t (dedupe_frames frames t) []
  simp only [List.nil_append, List.map_nil] at this
  exact this h

/-- First frame of the monotonicity counterexample (10-bit fingerprints). -/
def cv1 : Frame := ⟨1, List.replicate 10 false⟩

/-- Second counterexample frame, at distance 4 from `cv1`. -/
def cv2 : Frame := ⟨2, [true, true, true, true, false, false, false, false, false, false]⟩

/-- Third counterexample frame: distance 7 from `cv1`, 3 from `cv2`. -/
def cv3 : Frame := ⟨3, [true, true, true, true, true, true, true, false, false, false]⟩

/-- Fourth counterexample frame: distance 7 from `cv1`, 3 from `cv2`,
6 from `cv3`. -/
def cv4 : Frame := ⟨4, [true, true, true, true, false, false, false, true, true, true]⟩

/-- C3 counterexample: the kept count is NOT monotonically non-increasing
in the threshold. On `[cv1, cv2, cv3, cv4]`, threshold 3 keeps 2 frames
(`cv1, cv2` — then `cv2` blocks `cv3` and `cv4`), while the larger
threshold 4 keeps 3 frames (`cv2` is discarded against `cv1`, so it no
longer blocks `cv3` and `cv4`). -/
theorem dedupe_count_not_monotone :
    ¬ ∀ (frames : List Frame) (t1 t2 : Nat), t1 ≤ t2 →
        (dedupe_frames frames t2).length ≤ (dedupe_frames frames t1).length := by
  intro h
  have h34 := h [cv1, cv2, cv3, cv4] 3 4 (by omega)
  have e3 : (dedupe_frames [cv1, cv2, cv3, cv4] 3).length = 2 := by decide
  have e4 : (dedupe_frames [cv1, cv2, cv3, cv4] 4).length = 3 := by decide
  omega

theorem hamming_eq_zero_of_length_eq (a b : Fp) (hlen : a.length = b.length)
    (h : hamming a b = 0) : a = b := by
  induction a generalizing b with
  | nil =>
    cases b with
    | nil => rfl
    | cons y ys => simp at hlen
  | cons x xs ih =>
    cases b with
    | nil => simp at hlen
    | cons y ys =>
      simp only [hamming] at h
      by_cases hxy : x = y
      · subst hxy
        simp at h
        simp only [List.length_cons, Nat.succ.injEq] at hlen
        rw [ih ys hlen h]
      · rw [if_neg hxy] at h
        omega

theorem dedupeAux_zero_complete (n : Nat) :
    ∀ (rest : List Frame) (H : List Fp),
      (∀ x ∈ H, x.length = n) → (∀ g ∈ rest, g.fp.length = n) →
      ∀ g ∈ rest, g.fp ∈ H ∨ g.fp ∈ (dedupeAux 0 rest H).map Frame.fp := by
  intro rest
  induction rest with
  | nil => intro H _ _ g hg; simp at hg
  | cons f rest ih =>
    intro H hH hrest g hg
    by_cases h : ∀ prev ∈ H, 0 < hamming f.fp prev
    · rw [dedupeAux_cons, if_pos h]
      rcases List.mem_cons.mp hg with hgf | hgrest
      · subst hgf
        right
        simp
      · have hH' : ∀ x ∈ H ++ [f.fp], x.length = n := by
          intro x hx
          rcases List.mem_append.mp hx with hx | hx
          · exact hH x hx
          · rw [List.mem_singleton] at hx
            subst hx
            exact hrest f (List.mem_cons_self f rest)
        have hrest' : ∀ g ∈ rest, g.fp.length = n := fun g hg =>
          hrest g (List.mem_cons_of_mem f hg)
        rcases ih (H ++ [f.fp]) hH' hrest' g hgrest with hmem | hmem
        · rcases List.mem_append.mp hmem with hmem | hmem
          · exact Or.inl hmem
          · right
            rw [List.mem_singleton] at hmem
            simp [hmem]
        · right
          simp only [List.map_cons, List.mem_cons]
          exact Or.inr hmem
    · rw [dedupeAux_cons, if_neg h]
      push_neg at h
      rcases h with ⟨prev, hprev, hdist⟩
      have hfp : f.fp = prev := by
        apply hamming_eq_zero_of_length_eq
        · rw [hrest f (List.mem_cons_self f rest), hH prev hprev]
        · omega
      rcases List.mem_cons.mp hg with hgf | hgrest
      · subst hgf
        exact Or.inl (hfp ▸ hprev)
      · exact ih H hH (fun g hg => hrest g (List.mem_cons_of_mem f hg)) g hgrest

theorem dedupe_frames_fp_nodup (frames : List Frame) (t : Nat) :
    ((dedupe_frames frames t).map Frame.fp).Nodup := by
  have h := dedupe_frames_pairwise frames t
  have h' : List.Pairwise (fun a b => a ≠ b) ((dedupe_frames frames t).map Frame.fp) := by
    refine List.Pairwise.map Frame.fp ?_ h
    intro a b hba heq
    rw [heq, hamming_self] at hba
    omega
  exact h'

/-- C3 amended: for inputs whose fingerprints all share one bit length (as
`imagehash.phash` guarantees), the kept count at any threshold `t` is at
most the kept count at threshold 0; full monotonicity between two
arbitrary thresholds fails (see the counterexample). -/
theorem dedupe_count_le_count_at_zero (frames : List Frame) (n t : Nat)
    (hn : ∀ f ∈ frames, f.fp.length = n) :
    (dedupe_frames frames t).length ≤ (dedupe_frames frames 0).length := by
  set lt := (dedupe_frames frames t).map Frame.fp with hlt
  set l0 := (dedupe_frames frames 0).map Frame.fp with hl0
  have hnodup_t : lt.Nodup := dedupe_frames_fp_nodup frames t
  have hnodup_0 : l0.Nodup := dedupe_frames_fp_nodup frames 0
  have hsub_t : lt.toFinset ⊆ (frames.map Frame.fp).toFinset := by
    intro x hx
    rw [List.mem_toFinset] at hx ⊢
    exact ((dedupeAux_sublist t frames []).map Frame.fp).subset hx
  have hsub_0 : (frames.map Frame.fp).toFinset ⊆ l0.toFinset := by
    intro x hx
    rw [List.mem_toFinset] at hx ⊢
    rcases List.mem_map.mp hx with ⟨g, hg, rfl⟩
    have h2 := dedupeAux_zero_complete n frames [] (by simp) hn g hg
    rw [hl0]
    simpa [dedupe_frames] using h2
  have hcard : lt.toFinset.card ≤ l0.toFinset.card :=
    Finset.card_le_card (hsub_t.trans hsub_0)
  have hlen_t : lt.toFinset.card = lt.length := List.toFinset_card_of_nodup hnodup_t
  have hlen_0 : l0.toFinset.card = l0.length := List.toFinset_card_of_nodup hnodup_0
  have : lt.length ≤ l0.length := by omega
  simpa [hlt, hl0] using this

/-- Witness for the amended C3 at a concrete two-frame input with one-bit
fingerprints. -/
theorem dedupe_count_le_count_at_zero_witness :
    (∀ f ∈ [(⟨1, [true]⟩ : Frame), ⟨2, [false]⟩], f.fp.length = 1) ∧
    (dedupe_frames [(⟨1, [true]⟩ : Frame), ⟨2, [false]⟩] 5).length ≤
      (dedupe_frames [(⟨1, [true]⟩ : Frame), ⟨2, [false]⟩] 0).length :=
  ⟨by decide,
   dedupe_count_le_count_at_zero [⟨1, [true]⟩, ⟨2, [false]⟩] 1 5 (by decide)⟩

/-- Outcome of a deduplication pass over frame files that may fail to
load: `ok` finishes with the output directory's contents; `err` models the
`Image.open` exception propagating out of `dedupe_frames`, carrying the
frames already copied into the output directory when it was raised. -/
inductive DedupOutcome where
  | ok (outDir : List Frame)
  | err (outDirAtFailure : List Frame)
deriving DecidableEq, Repr

/-- The loop of `dedupe_frames` over possibly-unreadable frame files:
`none` stands for a file on which `Image.open(path)` raises. The loop body
does not catch anything, so a `none` ends the pass immediately with the
output directory in its current state. -/
def dedupeAuxE (t : Nat) : List (Option Frame) → List Fp → List Frame → DedupOutcome
  | [], _, out => .ok out
  | none :: _, _, out => .err out
  | some f :: rest, hashes, out =>
    if ∀ prev ∈ hashes, t < hamming f.fp prev then
      dedupeAuxE t rest (hashes ++ [f.fp]) (out ++ [f])
    else
      dedupeAuxE t rest hashes out

/-- The `dedupe_frames` pass run over possibly-unreadable frame files. -/
def dedupe_framesE (frames : List (Option Frame)) (t : Nat) : DedupOutcome :=
  dedupeAuxE t frames [] []

theorem dedupeAuxE_ok (t : Nat) :
    ∀ (xs : List Frame) (H : List Fp) (out : List Frame),
      dedupeAuxE t (xs.map some) H out = .ok (out ++ dedupeAux t xs H) := by
  intro xs
  induction xs with
  | nil => intro H out; simp [dedupeAuxE, dedupeAux_nil]
  | cons f xs ih =>
    intro H out
    by_cases h : ∀ prev ∈ H, t < hamming f.fp prev
    · rw [List.map_cons]
      show dedupeAuxE t (some f :: xs.map some) H out = _
      rw [show dedupeAuxE t (some f :: xs.map some) H out =
            dedupeAuxE t (xs.map some) (H ++ [f.fp]) (out ++ [f]) from by
          simp only [dedupeAuxE, if_pos h],
        ih (H ++ [f.fp]) (out ++ [f]), dedupeAux_cons, if_pos h]
      simp
    · rw [List.map_cons]
      rw [show dedupeAuxE t (some f :: xs.map some) H out =
            dedupeAuxE t (xs.map some) H out from by
          simp only [dedupeAuxE, if_neg h],
        ih H out, dedupeAux_cons, if_neg h]

theorem dedupeAuxE_err (t : Nat) (ys : List (Option Frame)) :
    ∀ (xs : List Frame) (H : List Fp) (out : List Frame),
      dedupeAuxE t (xs.map some ++ none :: ys) H out =
        .err (out ++ dedupeAux t xs H) := by
  intro xs
  induction xs with
  | nil => intro H out; simp [dedupeAuxE, dedupeAux_nil]
  | cons f xs ih =>
    intro H out
    by_cases h : ∀ prev ∈ H, t < hamming f.fp prev
    · rw [List.map_cons, List.cons_append]
      rw [show dedupeAuxE t (some f :: (xs.map some ++ none :: ys)) H out =
            dedupeAuxE t (xs.map some ++ none :: ys) (H ++ [f.fp]) (out ++ [f]) from by
          simp only [dedupeAuxE, if_pos h],
        ih (H ++ [f.fp]) (out ++ [f]), dedupeAux_cons, if_pos h]
      simp
    · rw [List.map_cons, List.cons_append]
      rw [show dedupeAuxE t (some f :: (xs.map some ++ none :: ys)) H out =
            dedupeAuxE t (xs.map some ++ none :: ys) H out from by
          simp only [dedupeAuxE, if_neg h],
        ih H out, dedupeAux_cons, if_neg h]

/-- C9: if a frame file fails to load during a pass, the pass aborts by
propagating the failure — no skip-and-continue — so no frame after the
failing one is considered (the result does not depend on `ys`), while the
frames accepted from the prefix `xs` have already been copied into the
output directory and remain there; a pass over only readable frames
finishes normally with exactly the deduplicated output. -/
theorem dedupe_frames_abort_on_unreadable (xs : List Frame)
    (ys : List (Option Frame)) (t : Nat) :
    dedupe_framesE (xs.map some ++ none :: ys) t = .err (dedupe_frames xs t) ∧
    dedupe_framesE (xs.map some) t = .ok (dedupe_frames xs t) := by
  constructor
  · simpa [dedupe_framesE, dedupe_frames] using dedupeAuxE_err t ys xs [] []
  · simpa [dedupe_framesE, dedupe_frames] using dedupeAuxE_ok t xs [] []

/-- Embeds `extract_unique_frames` (instarec/frames.py:26-55): copies every
scene frame emitted by the segmenter into the output directory, in sorted
file-name order, and returns all of them — the loop appends each frame to
`kept` unconditionally (no fingerprinting at all). -/
def extract_unique_frames (segOut : List Frame) : List Frame :=
  segOut.foldl (fun kept f => kept ++ [f]) []

theorem foldl_append_singleton (l acc : List Frame) :
    l.foldl (fun kept f => kept ++ [f]) acc = acc ++ l := by
  induction l generalizing acc with
  | nil => simp
  | cons f l ih => simp [List.foldl_cons, ih]

theorem extract_unique_frames_id (l : List Frame) :
    extract_unique_frames l = l := by
  simpa [extract_unique_frames] using foldl_append_singleton l []

/-- Stage 2 → stage 3 of `_run_pipeline` (main.py:91-113): extract the
frames, and if the list is empty return the empty media list without
calling `analyze_frames`; otherwise return the analysis of the frame
list. The analysis stage is a parameter, as it is an external
collaborator. -/
def runPipeline (segOut : List Frame) (analyze : List Frame → List Nat) : List Nat :=
  let frame_paths := extract_unique_frames segOut
  if frame_paths.isEmpty then [] else analyze frame_paths

/-- Two identical scene frames (equal fingerprints, distance 0). -/
def dupA : Frame := ⟨1, List.replicate 8 false⟩

/-- Second copy of the duplicated scene frame. -/
def dupB : Frame := ⟨2, List.replicate 8 false⟩

/-- C7 evaluation: the pipeline's frame stage performs no perceptual
deduplication. `extract_unique_frames` returns every segmented frame
unchanged, and `_run_pipeline` hands that raw list to the analysis stage;
on two frames with identical fingerprints it therefore returns both,
whereas the Deduplicator at the default threshold 10 would keep only the
first. -/
theorem pipeline_does_not_dedupe :
    (∀ l : List Frame, extract_unique_frames l = l) ∧
    (∀ analyze : List Frame → List Nat,
      runPipeline [dupA, dupB] analyze = analyze [dupA, dupB]) ∧
    dedupe_frames [dupA, dupB] 10 = [dupA] ∧
    extract_unique_frames [dupA, dupB] ≠ dedupe_frames [dupA, dupB] 10 := by
  refine ⟨extract_unique_frames_id, ?_, by decide, ?_⟩
  · intro analyze
    simp [runPipeline, extract_unique_frames_id]
  · rw [extract_unique_frames_id]
    decide

/-- C8: if the Scene Segmenter yields zero frames, the coordinator
short-circuits — it returns the empty media list, and the result does not
depend on the analysis stage at all (so neither per-frame analysis nor
card detection is invoked). -/
theorem pipeline_short_circuits_on_empty (segOut : List Frame)
    (analyze₁ analyze₂ : List Frame → List Nat) (h : segOut = []) :
    runPipeline segOut analyze₁ = [] ∧
    runPipeline segOut analyze₁ = runPipeline segOut analyze₂ := by
  subst h
  constructor <;> simp [runPipeline, extract_unique_frames]

/-- Witness for C8 with two observably different analysis stages. -/
theorem pipeline_short_circuits_on_empty_witness :
    ([] : List Frame) = [] ∧
    runPipeline [] (fun _ => [5]) = [] ∧
    runPipeline [] (fun _ => [5]) = runPipeline [] (fun _ => [7]) :=
  ⟨rfl,
   (pipeline_short_circuits_on_empty [] (fun _ => [5]) (fun _ => [7]) rfl).1,
   (pipeline_short_circuits_on_empty [] (fun _ => [5]) (fun _ => [7]) rfl).2⟩

/-- A loaded colour image: a list of rows of pixel values (the numpy
array `img`; the pixel encoding is irrelevant to the claims). -/
abbrev Img := List (List Nat)

/-- Rows of the image, `img.shape[0]`. -/
def imgH (img : Img) : Nat := img.length

/-- Columns of the (rectangular) image array, `img.shape[1]`. -/
def imgW (img : Img) : Nat := (img.headD []).length

/-- Minimum of a list of naturals (`np.min` over a non-empty array;
0 on the empty list, which the source never reaches). -/
def listMin : List Nat → Nat
  | [] => 0
  | x :: xs => xs.foldl min x

/-- Maximum of a list of naturals (`np.max` over a non-empty array). -/
def listMax : List Nat → Nat
  | [] => 0
  | x :: xs => xs.foldl max x

/-- An axis-aligned box `[x1, y1, x2, y2]` in pixel coordinates. -/
structure Box where
  x1 : Nat
  y1 : Nat
  x2 : Nat
  y2 : Nat
deriving DecidableEq, Repr

/-- Embeds `cv2.boundingRect` of a point list: `(x, y, w, h)` with `x, y` the
coordinate minima and `w, h` the extents plus one; `(0, 0, 0, 0)` on an
empty point set. -/
def boundingRect (pts : List (Nat × Nat)) : Nat × Nat × Nat × Nat :=
  match pts with
  | [] => (0, 0, 0, 0)
  | _ :: _ =>
    let xs := pts.map Prod.fst
    let ys := pts.map Prod.snd
    (listMin xs, listMin ys,
     listMax xs - listMin xs + 1, listMax ys - listMin ys + 1)

/-- The box `[x, y, x + bw, y + bh]` built from a region's bounding
rectangle (extract_card.py:33-36). -/
def regionBox (pts : List (Nat × Nat)) : Box :=
  let r := boundingRect pts
  ⟨r.1, r.2.1, r.1 + r.2.2.1, r.2.1 + r.2.2.2⟩

/-- The union bounding box of all regions' boxes: minimum of the `x1`/`y1`
coordinates, maximum of the `x2`/`y2` coordinates (extract_card.py:41-44). -/
def unionBox (regions : List (List (Nat × Nat))) : Box :=
  let boxes := regions.map regionBox
  ⟨listMin (boxes.map Box.x1), listMin (boxes.map Box.y1),
   listMax (boxes.map Box.x2), listMax (boxes.map Box.y2)⟩

/-- Width `bw = x2 - x1` of the union box. -/
def boxW (b : Box) : Nat := b.x2 - b.x1

/-- Height `bh = y2 - y1` of the union box. -/
def boxH (b : Box) : Nat := b.y2 - b.y1

/-- The quantity `area_ratio = (bw * bh) / frame_area` as an exact rational. -/
def areaRatioQ (img : Img) (regions : List (List (Nat × Nat))) : ℚ :=
  ((boxW (unionBox regions) * boxH (unionBox regions) : Nat) : ℚ) /
    ((imgH img * imgW img : Nat) : ℚ)

/-- The quantity `aspect = bw / bh` as an exact rational. -/
def aspectQ (regions : List (List (Nat × Nat))) : ℚ :=
  ((boxW (unionBox regions) : Nat) : ℚ) / ((boxH (unionBox regions) : Nat) : ℚ)

/-- Constant `MIN_AREA_RATIO = 0.03` (extract_card.py:8). -/
def minAreaRatioQ : ℚ := 3 / 100

/-- Constant `ASPECT_MIN = 0.6` (extract_card.py:9). -/
def aspectMinQ : ℚ := 3 / 5

/-- Constant `ASPECT_MAX = 1.6` (extract_card.py:10). -/
def aspectMaxQ : ℚ := 8 / 5

/-- Crop `img[y1:y2, x1:x2]`: the numpy slice of the colour frame to a box. -/
def cropImg (img : Img) (b : Box) : Img :=
  ((img.drop b.y1).take (b.y2 - b.y1)).map
    (fun row => (row.drop b.x1).take (b.x2 - b.x1))

/-- Embeds `extract_card` (scripts/extract_card.py:13-65) on a loaded image,
with the MSER region proposals as input (the region detector is the
external engine): zero regions → `(None, 0.0)`; otherwise union the
region boxes, reject on `area_ratio < MIN_AREA_RATIO` or aspect outside
`[ASPECT_MIN, ASPECT_MAX]` returning `(None, area_ratio)`; otherwise crop
the original colour frame to the union box and return it with
`area_ratio`. Every outcome is a return value, never an exception. -/
def extract_card (img : Img) (regions : List (List (Nat × Nat))) :
    Option Img × ℚ :=
  if regions.isEmpty then (none, 0)
  else if areaRatioQ img regions < minAreaRatioQ then
    (none, areaRatioQ img regions)
  else if ¬ (aspectMinQ ≤ aspectQ regions ∧ aspectQ regions ≤ aspectMaxQ) then
    (none, areaRatioQ img regions)
  else
    (some (cropImg img (unionBox regions)), areaRatioQ img regions)

/-- C2: for a loadable frame (positive pixel area) and MSER proposals
(each a non-empty pixel set), `extract_card` reports not-found exactly
when there are zero regions (score 0.0), or the union box's area ratio is
strictly below `MIN_AREA_RATIO`, or its aspect lies outside the closed
band `[ASPECT_MIN, ASPECT_MAX]` (score `area_ratio` in both latter
cases); rejection is always this normal return value, never an
exception — the embedding is a total function. -/
theorem extract_card_notFound_iff (img : Img)
    (regions : List (List (Nat × Nat)))
    (_hA : 0 < imgH img * imgW img)
    (_hr : ∀ r ∈ regions, r ≠ []) :
    ((extract_card img regions).1 = none ↔
      regions = [] ∨ areaRatioQ img regions < minAreaRatioQ ∨
      aspectQ regions < aspectMinQ ∨ aspectMaxQ < aspectQ regions) ∧
    (regions = [] → (extract_card img regions).2 = 0) ∧
    (regions ≠ [] → (extract_card img regions).2 = areaRatioQ img regions) := by
  by_cases he : regions = []
  · subst he
    refine ⟨?_, ?_, ?_⟩ <;> simp [extract_card]
  · have he' : regions.isEmpty = false := by
      simpa [List.isEmpty_iff] using he
    by_cases h1 : areaRatioQ img regions < minAreaRatioQ
    · have hval : extract_card img regions = (none, areaRatioQ img regions) := by
        simp [extract_card, he', h1]
      refine ⟨?_, ?_, ?_⟩
      · rw [hval]
        constructor
        · intro _
          exact Or.inr (Or.inl h1)
        · intro _
          rfl
      · intro hc; exact absurd hc he
      · intro _; rw [hval]
    · by_cases h2 : aspectMinQ ≤ aspectQ regions ∧ aspectQ regions ≤ aspectMaxQ
      · have hval : extract_card img regions =
            (some (cropImg img (unionBox regions)), areaRatioQ img regions) := by
          simp [extract_card, he', h1, h2.1, h2.2]
        have hnot : ¬ (regions = [] ∨ areaRatioQ img regions < minAreaRatioQ ∨
            aspectQ regions < aspectMinQ ∨ aspectMaxQ < aspectQ regions) := by
          push_neg
          exact ⟨he, not_lt.mp h1, h2.1, h2.2⟩
        refine ⟨?_, ?_, ?_⟩
        · rw [hval]
          constructor
          · intro hnone
            exact absurd hnone (by simp)
          · intro hd
            exact absurd hd hnot
        · intro hc; exact absurd hc he
        · intro _; rw [hval]
      · have hband : aspectQ regions < aspectMinQ ∨ aspectMaxQ < aspectQ regions := by
          rcases not_and_or.mp h2 with hc | hc
          · exact Or.inl (not_le.mp hc)
          · exact Or.inr (not_le.mp hc)
        have hval : extract_card img regions = (none, areaRatioQ img regions) := by
          simp [extract_card, he', h1, h2]
        refine ⟨?_, ?_, ?_⟩
        · rw [hval]
          constructor
          · intro _
            exact Or.inr (Or.inr hband)
          · intro _
            rfl
        · intro hc; exact absurd hc he
        · intro _; rw [hval]

/-- Witness for C2 at a 1×1 image with zero proposed regions. -/
theorem extract_card_notFound_iff_witness :
    0 < imgH [[0]] * imgW [[0]] ∧ (extract_card [[0]] []).2 = 0 :=
  ⟨by decide,
   (extract_card_notFound_iff [[0]] [] (by decide) (by decide)).2.1 rfl⟩

/-- C6: when at least one region is proposed and both geometric filters
pass, `extract_card` returns the original colour frame cropped exactly to
the union bounding box together with diagnostic score `area_ratio`; the
union box coordinates are the minimum of the region boxes' `x1`/`y1` and
the maximum of their `x2`/`y2`. -/
theorem extract_card_accept (img : Img) (regions : List (List (Nat × Nat)))
    (h1 : regions ≠ [])
    (h2 : minAreaRatioQ ≤ areaRatioQ img regions)
    (h3 : aspectMinQ ≤ aspectQ regions)
    (h4 : aspectQ regions ≤ aspectMaxQ) :
    extract_card img regions =
      (some (cropImg img (unionBox regions)), areaRatioQ img regions) ∧
    (unionBox regions).x1 = listMin ((regions.map regionBox).map Box.x1) ∧
    (unionBox regions).y1 = listMin ((regions.map regionBox).map Box.y1) ∧
    (unionBox regions).x2 = listMax ((regions.map regionBox).map Box.x2) ∧
    (unionBox regions).y2 = listMax ((regions.map regionBox).map Box.y2) := by
  have he' : regions.isEmpty = false := by
    simpa [List.isEmpty_iff] using h1
  refine ⟨?_, rfl, rfl, rfl, rfl⟩
  simp [extract_card, he', not_lt.mpr h2, h3, h4]

/-- A 66 × 100 sample frame; its union box below covers 15% of it. -/
def sampleImg : Img := List.replicate 66 (List.replicate 100 0)

/-- A single sample MSER region spanning a 33 × 30 box (aspect 1.1). -/
def sampleRegions : List (List (Nat × Nat)) := [[(0, 0), (32, 29)]]

/-- Witness for C6: the sample frame and region give an accepted crop with
diagnostic score exactly 0.15 at aspect 1.1. -/
theorem extract_card_accept_witness :
    sampleRegions ≠ [] ∧
    areaRatioQ sampleImg sampleRegions = 3 / 20 ∧
    aspectQ sampleRegions = 11 / 10 ∧
    extract_card sampleImg sampleRegions =
      (some (cropImg sampleImg (unionBox sampleRegions)),
       areaRatioQ sampleImg sampleRegions) := by
  have hW : boxW (unionBox sampleRegions) = 33 := by decide
  have hH : boxH (unionBox sampleRegions) = 30 := by decide
  have hh : imgH sampleImg = 66 := by decide
  have hw : imgW sampleImg = 100 := by decide
  have hAr : areaRatioQ sampleImg sampleRegions = 3 / 20 := by
    simp only [areaRatioQ, hW, hH, hh, hw]
    norm_num
  have hAs : aspectQ sampleRegions = 11 / 10 := by
    simp only [aspectQ, hW, hH]
    norm_num
  refine ⟨by decide, hAr, hAs, ?_⟩
  exact (extract_card_accept sampleImg sampleRegions (by decide)
    (by rw [hAr]; norm_num [minAreaRatioQ])
    (by rw [hAs]; norm_num [aspectMinQ])
    (by rw [hAs]; norm_num [aspectMaxQ])).1

/-- Minimum of a non-empty list is at most its head. -/
theorem listMin_cons_le (x : Nat) (l : List Nat) : listMin (x :: l) ≤ x := by
  rw [listMin]
  induction l generalizing x with
  | nil => simp
  | cons y l ih =>
    rw [List.foldl_cons]
    exact le_trans (ih (min x y)) (min_le_left x y)

/-- Maximum of a non-empty list is at least its head. -/
theorem le_listMax_cons (x : Nat) (l : List Nat) : x ≤ listMax (x :: l) := by
  rw [listMax]
  induction l generalizing x with
  | nil => simp
  | cons y l ih =>
    rw [List.foldl_cons]
    exact le_trans (le_max_left x y) (ih (max x y))

/-- Width and height of a non-empty region's bounding rectangle are ≥ 1. -/
theorem boundingRect_dims_pos (p : Nat × Nat) (ps : List (Nat × Nat)) :
    1 ≤ (boundingRect (p :: ps)).2.2.1 ∧ 1 ≤ (boundingRect (p :: ps)).2.2.2 := by
  simp only [boundingRect]
  omega

/-- C10: whenever at least one region is proposed (each an MSER pixel set,
hence non-empty), every region's bounding box has width and height ≥ 1, so
the union box has width `x2 - x1 ≥ 1` and height `y2 - y1 ≥ 1`; the
denominator of the aspect-ratio division is therefore non-zero, and with
zero regions `extract_card` returns before the division is reached. -/
theorem extract_card_no_div_by_zero (regions : List (List (Nat × Nat)))
    (h1 : regions ≠ []) (h2 : ∀ r ∈ regions, r ≠ []) :
    (∀ r ∈ regions, 1 ≤ (regionBox r).x2 - (regionBox r).x1 ∧
      1 ≤ (regionBox r).y2 - (regionBox r).y1) ∧
    1 ≤ boxW (unionBox regions) ∧
    1 ≤ boxH (unionBox regions) ∧
    ((boxH (unionBox regions) : Nat) : ℚ) ≠ 0 ∧
    (∀ img : Img, extract_card img [] = (none, 0)) := by
  have hreg : ∀ r ∈ regions, 1 ≤ (regionBox r).x2 - (regionBox r).x1 ∧
      1 ≤ (regionBox r).y2 - (regionBox r).y1 := by
    intro r hrmem
    rcases r with _ | ⟨p, ps⟩
    · exact absurd rfl (h2 [] hrmem)
    · have := boundingRect_dims_pos p ps
      simp only [regionBox]
      omega
  rcases List.exists_cons_of_ne_nil h1 with ⟨r0, rs, rfl⟩
  have hr0 := hreg r0 (List.mem_cons_self r0 rs)
  have hux1 : (unionBox (r0 :: rs)).x1 ≤ (regionBox r0).x1 := by
    simpa [unionBox] using
      listMin_cons_le (regionBox r0).x1 ((rs.map regionBox).map Box.x1)
  have huy1 : (unionBox (r0 :: rs)).y1 ≤ (regionBox r0).y1 := by
    simpa [unionBox] using
      listMin_cons_le (regionBox r0).y1 ((rs.map regionBox).map Box.y1)
  have hux2 : (regionBox r0).x2 ≤ (unionBox (r0 :: rs)).x2 := by
    simpa [unionBox] using
      le_listMax_cons (regionBox r0).x2 ((rs.map regionBox).map Box.x2)
  have huy2 : (regionBox r0).y2 ≤ (unionBox (r0 :: rs)).y2 := by
    simpa [unionBox] using
      le_listMax_cons (regionBox r0).y2 ((rs.map regionBox).map Box.y2)
  have hW : 1 ≤ boxW (unionBox (r0 :: rs)) := by
    have := hr0.1
    simp only [boxW] at *
    omega
  have hH : 1 ≤ boxH (unionBox (r0 :: rs)) := by
    have := hr0.2
    simp only [boxH] at *
    omega
  refine ⟨hreg, hW, hH, ?_, ?_⟩
  · have : (boxH (unionBox (r0 :: rs)) : Nat) ≠ 0 := by omega
    exact_mod_cast Nat.cast_ne_zero.mpr this
  · intro img
    simp [extract_card]

/-- Witness for C10 at the sample region. -/
theorem extract_card_no_div_by_zero_witness :
    sampleRegions ≠ [] ∧
    1 ≤ boxH (unionBox sampleRegions) ∧
    ((boxH (unionBox sampleRegions) : Nat) : ℚ) ≠ 0 :=
  ⟨by decide,
   (extract_card_no_div_by_zero sampleRegions (by decide) (by decide)).2.2.1,
   (extract_card_no_div_by_zero sampleRegions (by decide) (by decide)).2.2.2.1⟩

end Instarec
